import Mathlib

/-!
Verification of the tablecloth query-space engine: a registry of named SQL
templates whose bodies may reference one another with `\x7b\x7bname\x7d\x7d`
placeholders, compiled into a single statement with one named auxiliary block
per transitive dependency, in topological order.  The queryspace module itself
is not part of the shipped sources (the repository only carries its tutorial
notebook and README), so the definitions below are modelled from the
specification and checked against it.
-/

namespace Tablecloth

/-- Modelled from the spec: the open-brace delimiter character of the
placeholder grammar (the queryspace module's source is absent from the
repository). -/
def obr : Char := Char.ofNat 123

/-- Modelled from the spec: the close-brace delimiter character of the
placeholder grammar. -/
def cbr : Char := Char.ofNat 125

/-- Modelled from the spec: first character of an identifier,
matching `[A-Za-z_]`. -/
def isIdentStart (c : Char) : Bool := c.isAlpha || c == '_'

/-- Modelled from the spec: subsequent character of an identifier,
matching `[A-Za-z0-9_]`. -/
def isIdentChar (c : Char) : Bool := c.isAlphanum || c == '_'

/-- Modelled from the spec: the identifier grammar
`[A-Za-z_][A-Za-z0-9_]*` on a character list. -/
def isIdentL : List Char → Bool
  | [] => false
  | c :: cs => isIdentStart c && cs.all isIdentChar

/-- Modelled from the spec: the error taxonomy of the queryspace engine
(section 7 of the specification); the module carrying these error values is
absent from the repository sources. -/
inductive QSError where
  | notFound (name : String)
  | unknownDependency (name : String)
  | cycleError (path : List String)
  | parseError (fragment : String)
  | configError (key : String)
deriving DecidableEq, Repr

/-- Scanner state for the reference extractor: outside any placeholder,
having seen one opening brace, inside a placeholder collecting content
(in reverse), or inside having just seen one closing brace. -/
inductive ScanSt where
  | out
  | ob1
  | inP (acc : List Char)
  | inPcb (acc : List Char)

/-- Modelled from the spec: the reference extractor's scan.  It walks the body
left to right; a literal `\x7b\x7b` opens a placeholder, the first following
`\x7d\x7d` closes it, the enclosed content must match the identifier grammar
(else `ParseError` naming the fragment), and everything else is opaque text.
An unclosed opening delimiter at end of input yields no further references. -/
def scanS : ScanSt → List Char → Except QSError (List String)
  | _, [] => .ok []
  | .out, c :: rest => if c = obr then scanS .ob1 rest else scanS .out rest
  | .ob1, c :: rest => if c = obr then scanS (.inP []) rest else scanS .out rest
  | .inP acc, c :: rest =>
    if c = cbr then scanS (.inPcb acc) rest else scanS (.inP (c :: acc)) rest
  | .inPcb acc, c :: rest =>
    if c = cbr then
      if isIdentL acc.reverse then
        match scanS .out rest with
        | .error e => .error e
        | .ok others => .ok (String.mk acc.reverse :: others)
      else .error (.parseError (String.mk acc.reverse))
    else scanS (.inP (c :: cbr :: acc)) rest

/-- Modelled from the spec: in-place substitution pass that rewrites every
well-formed `\x7b\x7bx\x7d\x7d` placeholder to the bare name `x`, leaving all
other text (including malformed or unclosed delimiter content) unchanged.
It pairs delimiters exactly as the extractor does. -/
def substS : ScanSt → List Char → List Char
  | .out, [] => []
  | .ob1, [] => [obr]
  | .inP acc, [] => obr :: obr :: acc.reverse
  | .inPcb acc, [] => obr :: obr :: acc.reverse ++ [cbr]
  | .out, c :: rest => if c = obr then substS .ob1 rest else c :: substS .out rest
  | .ob1, c :: rest =>
    if c = obr then substS (.inP []) rest else obr :: c :: substS .out rest
  | .inP acc, c :: rest =>
    if c = cbr then substS (.inPcb acc) rest else substS (.inP (c :: acc)) rest
  | .inPcb acc, c :: rest =>
    if c = cbr then
      if isIdentL acc.reverse then acc.reverse ++ substS .out rest
      else obr :: obr :: acc.reverse ++ cbr :: cbr :: substS .out rest
    else substS (.inP (c :: cbr :: acc)) rest

/-- Modelled from the spec: `extract(body)` returns the ordered sequence of
names referenced by a template body, or a `ParseError` for malformed
placeholder content. -/
def extract (s : String) : Except QSError (List String) :=
  scanS .out s.toList

/-- Modelled from the spec: a template body with every placeholder reference
rewritten to the bare referenced name. -/
def substBare (s : String) : String :=
  String.mk (substS .out s.toList)

/-- Modelled from the spec: the registry is a mapping from name to template
body; we embed it as an association list. -/
abbrev Registry := List (String × String)

/-- Modelled from the spec: `get(name)` — look a name up in the registry. -/
def qlookup : Registry → String → Option String
  | [], _ => none
  | (k, v) :: rest, n => if k = n then some v else qlookup rest n

/-- Modelled from the spec: `register(name, body)` inserts or replaces the
template for `name`, unconditionally. -/
def register : Registry → String → String → Registry
  | [], name, body => [(name, body)]
  | (k, v) :: rest, name, body =>
    if k = name then (name, body) :: rest
    else (k, v) :: register rest name body

/-- The distinct registered names. -/
def namesOf (r : Registry) : List String := (r.map Prod.fst).dedup

/-- Modelled from the spec: the dependency edges of a name, derived on demand
from the current body text (empty for unregistered names or unparseable
bodies; the consumers that care about those failures surface them
themselves). -/
def depsOf (r : Registry) (n : String) : List String :=
  match qlookup r n with
  | none => []
  | some b =>
    match extract b with
    | .error _ => []
    | .ok ds => ds

/-- Count of registered names not on the current traversal path; the
termination measure of the dependency-graph traversal. -/
def unvisited (r : Registry) (path : List String) : Nat :=
  ((namesOf r).filter (fun x => decide (¬ x ∈ path))).length

/-- A successful lookup means the name occurs among the registered names.
Stated as a definition because the traversal's termination proof needs it. -/
def qlookup_mem_namesOf : ∀ (r : Registry) (n : String) (b : String),
    qlookup r n = some b → n ∈ namesOf r := by
  intro r n b h
  have hm : n ∈ r.map Prod.fst := by
    induction r with
    | nil => simp [qlookup] at h
    | cons kv rest ih =>
      obtain ⟨k, v⟩ := kv
      by_cases hk : k = n
      · subst hk; simp
      · simp only [qlookup, if_neg hk] at h
        simpa using Or.inr (ih h)
  exact List.mem_dedup.mpr hm

/-- Filtering with a pointwise stronger predicate keeps at most as many
elements.  Stated as a definition because the traversal's termination proof
needs it. -/
def filter_length_mono : ∀ (l : List String) (p q : String → Bool),
    (∀ x, p x = true → q x = true) →
    (l.filter p).length ≤ (l.filter q).length := by
  intro l p q hpq
  induction l with
  | nil => simp
  | cons a rest ih =>
    by_cases hp : p a = true
    · simp [List.filter_cons, hp, hpq a hp]; omega
    · have : p a = false := by revert hp; cases p a <;> simp
      simp only [List.filter_cons, this]
      cases hq : q a <;> simp <;> omega

/-- Filtering keeps strictly fewer elements when some list member is dropped
by the first predicate but kept by the pointwise weaker second one.  Stated
as a definition because the traversal's termination proof needs it. -/
def filter_length_lt : ∀ (l : List String) (p q : String → Bool) (n : String),
    (∀ x, p x = true → q x = true) → n ∈ l → p n = false → q n = true →
    (l.filter p).length < (l.filter q).length := by
  intro l p q n hpq hl hpn hqn
  induction l with
  | nil => cases hl
  | cons a rest ih =>
    rcases List.mem_cons.mp hl with rfl | hmem
    · rw [List.filter_cons, List.filter_cons, hpn, hqn, if_neg (by simp),
        if_pos rfl]
      exact Nat.lt_succ_of_le (filter_length_mono rest p q hpq)
    · rw [List.filter_cons, List.filter_cons]
      cases hpa : p a
      · cases hqa : q a
        · rw [if_neg (by simp), if_neg (by simp)]
          exact ih hmem
        · rw [if_neg (by simp), if_pos rfl]
          exact Nat.lt_succ_of_lt (ih hmem)
      · have hqa : q a = true := hpq a hpa
        rw [hqa, if_pos rfl, if_pos rfl]
        simpa using Nat.succ_lt_succ (ih hmem)

/-- Extending the path by a registered, not-yet-on-path name strictly
decreases the count of unvisited registered names.  Stated as a definition
because the traversal's termination proof needs it. -/
def unvisited_cons_lt : ∀ (r : Registry) (path : List String) (n : String),
    (qlookup r n).isSome = true → ¬ n ∈ path →
    unvisited r (n :: path) < unvisited r path := by
  intro r path n hq hnp
  obtain ⟨b, hb⟩ := Option.isSome_iff_exists.mp hq
  have hmem := qlookup_mem_namesOf r n b hb
  unfold unvisited
  exact filter_length_lt (namesOf r)
    (fun x => decide (¬ x ∈ n :: path)) (fun x => decide (¬ x ∈ path)) n
    (by intro x hx; simp at hx ⊢; exact hx.2)
    hmem (by simp) (by simpa using hnp)

/-- Modelled from the spec: the ordered list of names forming a detected
cycle, from the repeated node back to itself. -/
def cycleOf (n : String) (path : List String) : List String :=
  n :: (path.takeWhile (fun x => x != n)).reverse ++ [n]

/-- Current body of a registered name, defaulting to the empty string (only
used for names already verified to be registered). -/
def bodyOf (r : Registry) (n : String) : String := (qlookup r n).getD ""

/-- Modelled from the spec: the dependency-graph traversal used for compiling.
`visitL r path acc l` processes the pending names `l` (children of the head
of `path`), with `acc` the topologically-sorted names emitted so far and
`path` the current recursion stack.  Revisiting a name on the path fails with
`CycleError`; a reference to an unregistered name fails with
`UnknownDependency`; a name already emitted is skipped (deduplication); a new
name has its dependencies visited first and is then appended after them
(post-order), so every name appears after all of its dependencies. -/
def visitL (r : Registry) : List String → List String → List String →
    Except QSError (List String)
  | _, acc, [] => .ok acc
  | path, acc, n :: ns =>
    if _hacc : n ∈ acc then visitL r path acc ns
    else if hpath : n ∈ path then .error (.cycleError (cycleOf n path))
    else if hq : (qlookup r n).isSome then
      match extract (bodyOf r n) with
      | .error e => .error e
      | .ok deps =>
        match visitL r (n :: path) acc deps with
        | .error e => .error e
        | .ok acc2 => visitL r path (acc2 ++ [n]) ns
    else .error (.unknownDependency n)
termination_by path _ l => (unvisited r path, l.length)
decreasing_by
  · exact Prod.Lex.right _ (by simp)
  · exact Prod.Lex.left _ _ (unvisited_cons_lt r path n hq hpath)
  · exact Prod.Lex.right _ (by simp)

/-- Replace every occurrence of the character pattern `p` by `v` in a text,
scanning left to right and not rescanning replaced output. -/
def replacePat (p v : List Char) : List Char → List Char
  | [] => []
  | c :: rest =>
    if (c :: rest).take p.length = p ∧ p ≠ []
    then v ++ replacePat p v (rest.drop (p.length - 1))
    else c :: replacePat p v rest
termination_by l => l.length
decreasing_by
  · simp only [List.length_cons, List.length_drop]
    omega
  · simp

/-- Modelled from the spec: the literal-parameter substitution pass.  Each
key must not collide with a registered name (else `ConfigError`); each
occurrence of `\x7bkey\x7d` in the assembled text is replaced by the key's
literal value. -/
def applyLiterals (r : Registry) : List (String × String) → String →
    Except QSError String
  | [], text => .ok text
  | (k, v) :: rest, text =>
    if (qlookup r k).isSome then .error (.configError k)
    else applyLiterals r rest
      (String.mk (replacePat (obr :: k.toList ++ [cbr]) v.toList text.toList))

/-- Modelled from the spec: `compile(name, literals)`.  Resolve the target
(`NotFound` if absent), extract its references, compute the topologically
ordered transitive dependency set `D` via the traversal, then: if `D` is
empty the result is the body unchanged; otherwise emit
`WITH d1 AS ( body1 ), d2 AS ( body2 ) <target body>` with one auxiliary
block per member of `D` in order, every block body and the trailing target
body having their references rewritten to bare names.  Finally apply the
literal-substitution pass. -/
def compile (r : Registry) (name : String)
    (lits : List (String × String)) : Except QSError String :=
  match qlookup r name with
  | none => .error (.notFound name)
  | some body =>
    match extract body with
    | .error e => .error e
    | .ok deps =>
      match visitL r [name] [] deps with
      | .error e => .error e
      | .ok d =>
        let core :=
          if d.isEmpty then body
          else "WITH " ++ String.intercalate ", "
            (d.map (fun n => n ++ " AS ( " ++ substBare (bodyOf r n) ++ " )"))
            ++ " " ++ substBare body
        applyLiterals r lits core

/-- Modelled from the spec: fuel bound for the reachability traversal — one
step per registered name plus one per reference occurrence, plus slack.  The
traversal marks each processed node as visited, so this bound is generous. -/
def fuelFor (r : Registry) : Nat :=
  1 + r.length + (r.map (fun kv => (depsOf r kv.1).length)).sum

/-- Modelled from the spec: visited-set traversal along dependency edges.
Processes a worklist; an already-visited node is skipped, a new node is
marked visited and its dependency edges are pushed (unregistered nodes have
no outgoing edges).  Cycles are harmless because of the visited set. -/
def traverse (r : Registry) : Nat → List String → List String → List String
  | 0, _, visited => visited
  | _ + 1, [], visited => visited
  | fuel + 1, n :: rest, visited =>
    if n ∈ visited then traverse r fuel rest visited
    else traverse r fuel (depsOf r n ++ rest) (n :: visited)

/-- Modelled from the spec: `reaches(root, target)` — fails with `NotFound`
when `root` is unregistered; otherwise returns whether `target` is visited by
the traversal from `root` along dependency edges (`false`, not an error, for
unreachable or unregistered targets). -/
def find_in_dependencies (r : Registry) (root target : String) :
    Except QSError Bool :=
  match qlookup r root with
  | none => .error (.notFound root)
  | some _ => .ok (decide (target ∈ traverse r (fuelFor r) [root] []))

/-- The dependency-edge relation: `Rdep r a b` holds when `a`'s current body
references `b`. -/
def Rdep (r : Registry) (a b : String) : Prop := b ∈ depsOf r a

/-- Transitive (reflexive) reachability along dependency edges. -/
def Reach (r : Registry) : String → String → Prop :=
  Relation.ReflTransGen (Rdep r)

/-- A dependency cycle reachable from `root`: some reachable `x` has an edge
to a `y` from which `x` is reachable again. -/
def CycleAt (r : Registry) (root : String) : Prop :=
  ∃ x y, Reach r root x ∧ Rdep r x y ∧ Reach r y x

/-- An ordered cycle path: at least one edge (length two or more), first and
last entries equal, and every consecutive pair a dependency edge. -/
def IsCyclePath (r : Registry) (c : List String) : Prop :=
  2 ≤ c.length ∧ c.head? = c.getLast? ∧ List.Chain' (Rdep r) c

/-- A name that resolves: registered, with a body that extracts cleanly. -/
def Resolvable (r : Registry) (x : String) : Prop :=
  ∃ b ds, qlookup r x = some b ∧ extract b = .ok ds

/-- A name whose body (if registered) extracts cleanly. -/
def CleanBody (r : Registry) (x : String) : Prop :=
  ∀ b, qlookup r x = some b → ∃ ds, extract b = .ok ds

/-- A list is dependency-closed and ordered: every member's dependency edges
point into the part of the list strictly before it. -/
def DepsClosed (r : Registry) (l : List String) : Prop :=
  ∀ l₁ x l₂, l = l₁ ++ x :: l₂ → ∀ y ∈ depsOf r x, y ∈ l₁

/-- Boolean discriminator: does a compile result carry a `CycleError`? -/
def isCycleErr : Except QSError String → Bool
  | .error (.cycleError _) => true
  | _ => false

/-- Boolean discriminator: does a compile result carry `UnknownDependency`? -/
def isUnknownDep : Except QSError String → Bool
  | .error (.unknownDependency _) => true
  | _ => false

/-- No two adjacent occurrences of the character `c` anywhere in the list. -/
def noAdjPair (c : Char) : List Char → Bool
  | a :: b :: rest => !((a == c) && (b == c)) && noAdjPair c (b :: rest)
  | _ => true

/-- Modelled from the spec: a body fragment scans cleanly from the given
state when every placeholder it opens is completed and well-formed and the
scanner ends outside any placeholder; the transitions mirror the reference
extractor exactly. -/
def scanClean : ScanSt → List Char → Bool
  | .out, [] => true
  | _, [] => false
  | .out, c :: rest =>
    if c = obr then scanClean .ob1 rest else scanClean .out rest
  | .ob1, c :: rest =>
    if c = obr then scanClean (.inP []) rest else scanClean .out rest
  | .inP acc, c :: rest =>
    if c = cbr then scanClean (.inPcb acc) rest
    else scanClean (.inP (c :: acc)) rest
  | .inPcb acc, c :: rest =>
    if c = cbr then isIdentL acc.reverse && scanClean .out rest
    else scanClean (.inP (c :: cbr :: acc)) rest

/-- Example template body with no placeholder, from the spec's test
properties. -/
def locBody : String := "SELECT state, city FROM location"

/-- Example template body referencing `loc`. -/
def cntBody : String :=
  "SELECT state, COUNT(city) AS ct FROM \x7b\x7bloc\x7d\x7d GROUP BY state"

/-- Example registry: `loc` and a `cnt` that references it. -/
def rLC : Registry := register (register [] "loc" locBody) "cnt" cntBody

/-- A replacement body for `loc`, used for the change-propagation claim. -/
def locBody2 : String :=
  "SELECT state, city FROM location WHERE city IS NOT NULL"

/-- `rLC` after re-registering `loc` with the replacement body. -/
def rLC2 : Registry := register rLC "loc" locBody2

/-- Diamond-shaped registry: `D` depends on `B` and `C`, both of which
depend on `A`. -/
def rDia : Registry :=
  register (register (register (register [] "A" "SELECT 1")
    "B" "SELECT b FROM \x7b\x7bA\x7d\x7d")
    "C" "SELECT c FROM \x7b\x7bA\x7d\x7d")
    "D" "SELECT d FROM \x7b\x7bB\x7d\x7d JOIN \x7b\x7bC\x7d\x7d"

/-- Two-template cycle: `A` references `B` and `B` references `A`. -/
def rAB : Registry :=
  register (register [] "A" "SELECT a FROM \x7b\x7bB\x7d\x7d")
    "B" "SELECT b FROM \x7b\x7bA\x7d\x7d"

/-- Registry with a reachable cycle whose traversal meets an unregistered
reference first: `A` references `missing` then `B`; `B` references `A`. -/
def rCX : Registry :=
  register (register [] "A" "\x7b\x7bmissing\x7d\x7d \x7b\x7bB\x7d\x7d")
    "B" "\x7b\x7bA\x7d\x7d"

/-- Registry with a reachable unregistered reference whose traversal meets a
cycle first: `A` references `B` then `missing`; `B` references `A`. -/
def rC7X : Registry :=
  register (register [] "A" "\x7b\x7bB\x7d\x7d \x7b\x7bmissing\x7d\x7d")
    "B" "\x7b\x7bA\x7d\x7d"

/-- Registry with a single template referencing an unregistered name. -/
def rMiss : Registry :=
  register [] "X" "SELECT x FROM \x7b\x7bmissing\x7d\x7d"

/-- Two registries with the same mapping in different insertion orders. -/
def rW1 : Registry := [("a", "SELECT 1"), ("b", "SELECT 2")]

/-- Two registries with the same mapping in different insertion orders. -/
def rW2 : Registry := [("b", "SELECT 2"), ("a", "SELECT 1")]

/-- A body holding a well-formed placeholder followed by a malformed one. -/
def badBody : String := String.mk ("\x7b\x7bgood\x7d\x7d ".toList ++
  obr :: obr :: (['b', '@', 'd'] ++ cbr :: cbr :: []))

/-- Registry whose target `T` references `M`, which holds the malformed
body. -/
def rBadDep : Registry := [("T", "\x7b\x7bM\x7d\x7d"), ("M", badBody)]



theorem depsOf_isSome_eq {r : Registry} {n : String} {ds : List String}
    (h1 : (qlookup r n).isSome = true) (h2 : extract (bodyOf r n) = .ok ds) :
    depsOf r n = ds := by
  obtain ⟨b, hb⟩ := Option.isSome_iff_exists.mp h1
  rw [bodyOf, hb] at h2
  simp only [Option.getD_some] at h2
  simp [depsOf, hb, h2]

theorem depsClosed_nil (r : Registry) : DepsClosed r [] := by
  intro l₁ x l₂ h
  cases l₁ <;> simp at h

theorem snoc_decomp {α : Type} (l : List α) (a : α) (l₁ : List α) (x : α)
    (l₂ : List α) (h : l ++ [a] = l₁ ++ x :: l₂) :
    (l₁ = l ∧ x = a ∧ l₂ = []) ∨
    ∃ l₂', l = l₁ ++ x :: l₂' ∧ l₂ = l₂' ++ [a] := by
  rcases List.eq_nil_or_concat l₂ with rfl | ⟨L, b, rfl⟩
  · left
    have := List.append_inj' h (by simp)
    exact ⟨this.1.symm, by simpa using this.2.symm, rfl⟩
  · right
    rw [List.concat_eq_append] at h
    rw [show l₁ ++ x :: (L ++ [b]) = (l₁ ++ x :: L) ++ [b] from by simp] at h
    have h2 := List.append_inj' h (by simp)
    have hab : a = b := by simpa using h2.2
    exact ⟨L, h2.1, by simp [hab]⟩

theorem depsClosed_snoc {r : Registry} {l : List String} {a : String}
    (hdc : DepsClosed r l) (hda : ∀ y ∈ depsOf r a, y ∈ l) :
    DepsClosed r (l ++ [a]) := by
  intro l₁ x l₂ heq y hy
  rcases snoc_decomp l a l₁ x l₂ heq with ⟨rfl, rfl, rfl⟩ | ⟨l₂', hl, _⟩
  · exact hda y hy
  · exact hdc l₁ x l₂' hl y hy

theorem visitL_ok_spec (r : Registry) : ∀ path acc l res,
    visitL r path acc l = .ok res →
    (∃ t, res = acc ++ t ∧
        ∀ z ∈ t, ¬ z ∈ path ∧ ¬ z ∈ acc ∧ (qlookup r z).isSome = true) ∧
    (∀ n ∈ l, n ∈ res) ∧
    (acc.Nodup → res.Nodup) ∧
    (DepsClosed r acc → DepsClosed r res) := by
  intro path acc l
  induction path, acc, l using visitL.induct r with
  | case1 path acc =>
    intro res h
    simp [visitL] at h
    subst h
    exact ⟨⟨[], by simp, by simp⟩, by simp, fun hd => hd, fun hd => hd⟩
  | case2 path acc n ns hacc ih =>
    intro res h
    simp only [visitL, dif_pos hacc] at h
    obtain ⟨⟨t, ht, hz⟩, hmem, hnd, hdc⟩ := ih res h
    refine ⟨⟨t, ht, hz⟩, ?_, hnd, hdc⟩
    intro m hm
    rcases List.mem_cons.mp hm with rfl | hm
    · rw [ht]; exact List.mem_append.mpr (Or.inl hacc)
    · exact hmem m hm
  | case3 path acc n ns hacc hpath =>
    intro res h
    simp [visitL, hacc, hpath] at h
  | case4 path acc n ns hacc hpath hq e he =>
    intro res h
    simp only [visitL, dif_neg hacc, dif_neg hpath, dif_pos hq, he] at h
    exact absurd h (by simp)
  | case5 path acc n ns hacc hpath hq deps he e hinner ih =>
    intro res h
    simp only [visitL, dif_neg hacc, dif_neg hpath, dif_pos hq, he,
      hinner] at h
    exact absurd h (by simp)
  | case6 path acc n ns hacc hpath hq deps he acc2 hinner ih1 ih2 =>
    intro res h
    simp only [visitL, dif_neg hacc, dif_neg hpath, dif_pos hq, he,
      hinner] at h
    obtain ⟨⟨t₁, ht₁, hz₁⟩, hmem₁, hnd₁, hdc₁⟩ := ih1 acc2 hinner
    obtain ⟨⟨t₂, ht₂, hz₂⟩, hmem₂, hnd₂, hdc₂⟩ := ih2 res h
    have hnacc2 : ¬ n ∈ acc2 := by
      rw [ht₁]
      intro hc
      rcases List.mem_append.mp hc with hc | hc
      · exact hacc hc
      · exact (hz₁ n hc).1 (List.mem_cons_self _ _)
    refine ⟨⟨t₁ ++ n :: t₂, ?_, ?_⟩, ?_, ?_, ?_⟩
    · rw [ht₂, ht₁]; simp
    · intro z hzm
      rcases List.mem_append.mp hzm with hz | hz
      · obtain ⟨hzp, hza, hzr⟩ := hz₁ z hz
        exact ⟨fun hc => hzp (List.mem_cons_of_mem _ hc), hza, hzr⟩
      · rcases List.mem_cons.mp hz with rfl | hz
        · exact ⟨hpath, hacc, hq⟩
        · obtain ⟨hzp, hza, hzr⟩ := hz₂ z hz
          refine ⟨hzp, fun hc => hza ?_, hzr⟩
          rw [ht₁]
          exact List.mem_append.mpr (Or.inl (List.mem_append.mpr (Or.inl hc)))
    · intro m hm
      rcases List.mem_cons.mp hm with rfl | hm
      · rw [ht₂]; exact List.mem_append.mpr (Or.inl (by simp))
      · exact hmem₂ m hm
    · intro hnd
      apply hnd₂
      rw [List.nodup_append]
      refine ⟨hnd₁ hnd, List.nodup_singleton n, ?_⟩
      intro x hx hxn
      rcases List.mem_singleton.mp hxn with rfl
      exact hnacc2 hx
    · intro hdc
      apply hdc₂
      apply depsClosed_snoc (hdc₁ hdc)
      rw [depsOf_isSome_eq hq he]
      intro y hy
      exact hmem₁ y hy
  | case7 path acc n ns hacc hpath hq =>
    intro res h
    simp [visitL, hacc, hpath, hq] at h


theorem scanS_error_parse : ∀ (l : List Char) (st : ScanSt) (e : QSError),
    scanS st l = .error e → ∃ f, e = .parseError f := by
  intro l
  induction l with
  | nil => intro st e h; cases st <;> simp [scanS] at h
  | cons c rest ih =>
    intro st e h
    cases st with
    | out =>
      simp only [scanS] at h
      split at h
      · exact ih _ _ h
      · exact ih _ _ h
    | ob1 =>
      simp only [scanS] at h
      split at h
      · exact ih _ _ h
      · exact ih _ _ h
    | inP acc =>
      simp only [scanS] at h
      split at h
      · exact ih _ _ h
      · exact ih _ _ h
    | inPcb acc =>
      simp only [scanS] at h
      split at h
      · split at h
        · cases hm : scanS ScanSt.out rest with
          | error e' =>
            rw [hm] at h
            simp at h
            obtain ⟨f, rfl⟩ := ih _ _ hm
            exact ⟨f, h.symm⟩
          | ok os => rw [hm] at h; simp at h
        · simp at h
          exact ⟨_, h.symm⟩
      · exact ih _ _ h

theorem extract_error_parse {s : String} {e : QSError}
    (h : extract s = .error e) : ∃ f, e = .parseError f :=
  scanS_error_parse s.toList .out e h

theorem reach_subset (r : Registry) (S : List String)
    (hS : ∀ x ∈ S, ∀ y ∈ depsOf r x, y ∈ S) {a : String} (ha : a ∈ S) :
    ∀ x, Reach r a x → x ∈ S := by
  intro x hx
  induction hx with
  | refl => exact ha
  | tail _ hbc ih => exact hS _ ih _ hbc

theorem reach_in_front (r : Registry) {D l₁ : List String} {x : String}
    {l₂ : List String} (hdc : DepsClosed r D) (hD : D = l₁ ++ x :: l₂) :
    ∀ y, Reach r x y → y ∈ l₁ ++ [x] := by
  intro y hy
  induction hy with
  | refl => simp
  | @tail b c _ hbc ih =>
    have hbc' : c ∈ depsOf r b := hbc
    rcases List.mem_append.mp ih with hb | hb
    · obtain ⟨p, q, hpq⟩ := List.append_of_mem hb
      have hD' : D = p ++ b :: (q ++ x :: l₂) := by rw [hD, hpq]; simp
      have hc := hdc p b (q ++ x :: l₂) hD' c hbc'
      refine List.mem_append.mpr (Or.inl ?_)
      rw [hpq]
      exact List.mem_append.mpr (Or.inl hc)
    · have hbx : b = x := List.mem_singleton.mp hb
      subst hbx
      have hc := hdc l₁ b l₂ hD c hbc'
      exact List.mem_append.mpr (Or.inl hc)

theorem visitL_ok_no_cycle (r : Registry) (T : String)
    {ds D : List String}
    (hreg : (qlookup r T).isSome = true)
    (he : extract (bodyOf r T) = .ok ds)
    (hv : visitL r [T] [] ds = .ok D) : ¬ CycleAt r T := by
  obtain ⟨⟨t, htD, hz⟩, hmem, hnd, hdc⟩ := visitL_ok_spec r [T] [] ds D hv
  rw [List.nil_append] at htD
  subst htD
  have hndD : D.Nodup := hnd List.nodup_nil
  have hdcD : DepsClosed r D := hdc (depsClosed_nil r)
  have hTD : ¬ T ∈ D := fun hT => (hz T hT).1 (by simp)
  have hdepsT : depsOf r T = ds := depsOf_isSome_eq hreg he
  have hclosed : ∀ x ∈ T :: D, ∀ y ∈ depsOf r x, y ∈ T :: D := by
    intro x hx y hy
    rcases List.mem_cons.mp hx with rfl | hx
    · rw [hdepsT] at hy
      exact List.mem_cons_of_mem _ (hmem y hy)
    · obtain ⟨p, q, hpq⟩ := List.append_of_mem hx
      refine List.mem_cons_of_mem _ ?_
      have := hdcD p x q hpq y hy
      rw [hpq]
      exact List.mem_append.mpr (Or.inl this)
  rintro ⟨x, y, hTx, hxy, hyx⟩
  have hxS : x ∈ T :: D := reach_subset r _ hclosed (by simp) x hTx
  rcases List.mem_cons.mp hxS with rfl | hxD
  · have hxy' : y ∈ depsOf r x := hxy
    have hyD : y ∈ D := hmem y (by rwa [hdepsT] at hxy')
    obtain ⟨p, q, hpq⟩ := List.append_of_mem hyD
    have hfr := reach_in_front r hdcD hpq x hyx
    apply hTD
    rw [hpq]
    rcases List.mem_append.mp hfr with h | h
    · exact List.mem_append.mpr (Or.inl h)
    · rcases List.mem_singleton.mp h with rfl
      exact List.mem_append.mpr (Or.inr (by simp))
  · obtain ⟨l₁, l₂, h₁⟩ := List.append_of_mem hxD
    have hxy' : y ∈ depsOf r x := hxy
    have hyl₁ : y ∈ l₁ := hdcD l₁ x l₂ h₁ y hxy'
    obtain ⟨p, q, hpq⟩ := List.append_of_mem hyl₁
    have h₂ : D = p ++ y :: (q ++ x :: l₂) := by rw [h₁, hpq]; simp
    have hfr := reach_in_front r hdcD h₂ x hyx
    have hxl₁ : ¬ x ∈ l₁ := by
      have hdisj := List.disjoint_of_nodup_append (by rwa [h₁] at hndD)
      exact fun hx => hdisj hx (by simp)
    apply hxl₁
    rw [hpq]
    rcases List.mem_append.mp hfr with h | h
    · exact List.mem_append.mpr (Or.inl h)
    · rcases List.mem_singleton.mp h with rfl
      exact List.mem_append.mpr (Or.inr (by simp))


theorem chain_reach (r : Registry) : ∀ (p : String) (t : List String),
    List.Chain' (fun a b => Rdep r b a) (p :: t) →
    ∀ n ∈ p :: t, Reach r n p := by
  intro p t
  induction t generalizing p with
  | nil =>
    intro _ n hn
    rcases List.mem_singleton.mp hn with rfl
    exact Relation.ReflTransGen.refl
  | cons q t' ih =>
    intro hch n hn
    have hqp : Rdep r q p := (List.chain'_cons.mp hch).1
    have hch' := (List.chain'_cons.mp hch).2
    rcases List.mem_cons.mp hn with rfl | hn'
    · exact Relation.ReflTransGen.refl
    · exact Relation.ReflTransGen.tail (ih q hch' n hn') hqp

theorem visitL_cycle_sound (r : Registry) (T : String) : ∀ path acc l,
    ∀ c, path ≠ [] →
    List.Chain' (fun a b => Rdep r b a) path →
    (∀ p ∈ path, Reach r T p) →
    (∀ n ∈ l, Rdep r (path.headD "") n) →
    visitL r path acc l = .error (.cycleError c) →
    CycleAt r T := by
  intro path acc l
  induction path, acc, l using visitL.induct r with
  | case1 path acc =>
    intro c _ _ _ _ h
    simp [visitL] at h
  | case2 path acc n ns hacc ih =>
    intro c hne hch hre hl h
    simp only [visitL, dif_pos hacc] at h
    exact ih c hne hch hre (fun m hm => hl m (List.mem_cons_of_mem _ hm)) h
  | case3 path acc n ns hacc hpath =>
    intro c hne hch hre hl _
    obtain ⟨p, tl, rfl⟩ := List.exists_cons_of_ne_nil hne
    exact ⟨p, n, hre p (by simp), hl n (by simp), chain_reach r p tl hch n hpath⟩
  | case4 path acc n ns hacc hpath hq e he =>
    intro c hne hch hre hl h
    simp only [visitL, dif_neg hacc, dif_neg hpath, dif_pos hq, he] at h
    obtain ⟨f, rfl⟩ := extract_error_parse he
    simp at h
  | case5 path acc n ns hacc hpath hq deps he e hinner ih =>
    intro c hne hch hre hl h
    simp only [visitL, dif_neg hacc, dif_neg hpath, dif_pos hq, he,
      hinner] at h
    obtain ⟨p, tl, rfl⟩ := List.exists_cons_of_ne_nil hne
    have hpn : Rdep r p n := hl n (by simp)
    have hTn : Reach r T n :=
      Relation.ReflTransGen.tail (hre p (by simp)) hpn
    have he' : e = .cycleError c := by simpa using h
    rw [he'] at hinner
    apply ih c (by simp) (List.chain'_cons.mpr ⟨hpn, hch⟩)
    · intro m hm
      rcases List.mem_cons.mp hm with rfl | hm'
      · exact hTn
      · exact hre m hm'
    · intro m hm
      have : m ∈ depsOf r n := by rw [depsOf_isSome_eq hq he]; exact hm
      exact this
    · exact hinner
  | case6 path acc n ns hacc hpath hq deps he acc2 hinner ih1 ih2 =>
    intro c hne hch hre hl h
    simp only [visitL, dif_neg hacc, dif_neg hpath, dif_pos hq, he,
      hinner] at h
    exact ih2 c hne hch hre (fun m hm => hl m (List.mem_cons_of_mem _ hm)) h
  | case7 path acc n ns hacc hpath hq =>
    intro c hne hch hre hl h
    simp [visitL, hacc, hpath, hq] at h

theorem visitL_error_kinds (r : Registry) (T : String) : ∀ path acc l,
    ∀ e, (∀ p ∈ path, Reach r T p) →
    (∀ n ∈ l, Reach r T n) →
    (∀ x, Reach r T x → CleanBody r x) →
    visitL r path acc l = .error e →
    (∃ c, e = .cycleError c) ∨
    (∃ d, e = .unknownDependency d ∧ qlookup r d = none ∧ Reach r T d) := by
  intro path acc l
  induction path, acc, l using visitL.induct r with
  | case1 path acc =>
    intro e _ _ _ h
    simp [visitL] at h
  | case2 path acc n ns hacc ih =>
    intro e hre hl hcb h
    simp only [visitL, dif_pos hacc] at h
    exact ih e hre (fun m hm => hl m (List.mem_cons_of_mem _ hm)) hcb h
  | case3 path acc n ns hacc hpath =>
    intro e hre hl hcb h
    simp only [visitL, dif_neg hacc, dif_pos hpath] at h
    exact Or.inl ⟨cycleOf n path, by simpa using h.symm⟩
  | case4 path acc n ns hacc hpath hq e' he =>
    intro e hre hl hcb h
    obtain ⟨b, hb⟩ := Option.isSome_iff_exists.mp hq
    obtain ⟨ds, hds⟩ := hcb n (hl n (by simp)) b hb
    rw [bodyOf, hb] at he
    simp only [Option.getD_some] at he
    rw [hds] at he
    exact absurd he (by simp)
  | case5 path acc n ns hacc hpath hq deps he e' hinner ih =>
    intro e hre hl hcb h
    simp only [visitL, dif_neg hacc, dif_neg hpath, dif_pos hq, he,
      hinner] at h
    have hTn : Reach r T n := hl n (by simp)
    have he' : e' = e := by simpa using h
    rw [he'] at hinner
    apply ih e ?_ ?_ hcb hinner
    · intro p hp
      rcases List.mem_cons.mp hp with rfl | hp'
      · exact hTn
      · exact hre p hp'
    · intro m hm
      have hmn : m ∈ depsOf r n := by rw [depsOf_isSome_eq hq he]; exact hm
      exact Relation.ReflTransGen.tail hTn hmn
  | case6 path acc n ns hacc hpath hq deps he acc2 hinner ih1 ih2 =>
    intro e hre hl hcb h
    simp only [visitL, dif_neg hacc, dif_neg hpath, dif_pos hq, he,
      hinner] at h
    exact ih2 e hre (fun m hm => hl m (List.mem_cons_of_mem _ hm)) hcb h
  | case7 path acc n ns hacc hpath hq =>
    intro e hre hl hcb h
    simp only [visitL, dif_neg hacc, dif_neg hpath, dif_neg hq] at h
    refine Or.inr ⟨n, by simpa using h.symm, ?_, hl n (by simp)⟩
    exact Option.not_isSome_iff_eq_none.mp hq


theorem compile_eq_of_ok {r : Registry} {name body : String}
    {deps D : List String} (lits : List (String × String))
    (hb : qlookup r name = some body)
    (he : extract body = .ok deps)
    (hv : visitL r [name] [] deps = .ok D) :
    compile r name lits = applyLiterals r lits
      (if D.isEmpty then body
       else "WITH " ++ String.intercalate ", "
         (D.map (fun n => n ++ " AS ( " ++ substBare (bodyOf r n) ++ " )"))
         ++ " " ++ substBare body) := by
  simp only [compile, hb, he, hv]

theorem compile_eq_of_err {r : Registry} {name body : String}
    {deps : List String} {e : QSError} (lits : List (String × String))
    (hb : qlookup r name = some body)
    (he : extract body = .ok deps)
    (hv : visitL r [name] [] deps = .error e) :
    compile r name lits = .error e := by
  simp only [compile, hb, he, hv]

theorem visitL_ok_reach_mem (r : Registry) (T : String) {ds D : List String}
    (hreg : (qlookup r T).isSome = true)
    (he : extract (bodyOf r T) = .ok ds)
    (hv : visitL r [T] [] ds = .ok D) :
    ∀ x, Reach r T x → x ∈ T :: D := by
  obtain ⟨⟨t, htD, hz⟩, hmem, _, hdc⟩ := visitL_ok_spec r [T] [] ds D hv
  rw [List.nil_append] at htD
  subst htD
  have hdcD := hdc (depsClosed_nil r)
  have hdepsT := depsOf_isSome_eq hreg he
  apply reach_subset r (T :: D) ?_ (by simp)
  intro x hx y hy
  rcases List.mem_cons.mp hx with rfl | hx
  · rw [hdepsT] at hy
    exact List.mem_cons_of_mem _ (hmem y hy)
  · obtain ⟨p, q, hpq⟩ := List.append_of_mem hx
    refine List.mem_cons_of_mem _ ?_
    have := hdcD p x q hpq y hy
    rw [hpq]
    exact List.mem_append.mpr (Or.inl this)

theorem takeWhile_ne_decomp : ∀ (path : List String) (n : String),
    n ∈ path →
    ∃ suf, path = path.takeWhile (fun x => x != n) ++ n :: suf := by
  intro path n
  induction path with
  | nil => intro h; cases h
  | cons a rest ih =>
    intro h
    by_cases ha : a = n
    · subst ha
      refine ⟨rest, ?_⟩
      have hfa : (a != a) = false := by simp
      simp [List.takeWhile_cons, hfa]
    · have hrest : n ∈ rest := by
        rcases List.mem_cons.mp h with h' | h'
        · exact absurd h'.symm ha
        · exact h'
      obtain ⟨suf, hsuf⟩ := ih hrest
      refine ⟨suf, ?_⟩
      have hta : (a != n) = true := by simpa using ha
      simp only [List.takeWhile_cons, hta, if_true]
      rw [List.cons_append, ← hsuf]

theorem cycleOf_isCycle (r : Registry) (n p₁ : String) (tl : List String)
    (hch : List.Chain' (fun a b => Rdep r b a) (p₁ :: tl))
    (hmem : n ∈ p₁ :: tl)
    (hp₁ : Rdep r p₁ n) :
    IsCyclePath r (cycleOf n (p₁ :: tl)) ∧
    ∀ x ∈ cycleOf n (p₁ :: tl), x ∈ p₁ :: tl := by
  obtain ⟨suf, hdec⟩ := takeWhile_ne_decomp (p₁ :: tl) n hmem
  set pre := (p₁ :: tl).takeWhile (fun x => x != n) with hpre
  have hcy : cycleOf n (p₁ :: tl) = (n :: pre.reverse) ++ [n] := rfl
  have hsplit := List.chain'_append.mp (hdec ▸ hch)
  have hboundary : ∀ x ∈ pre.getLast?, Rdep r n x := by
    intro x hx
    exact hsplit.2.2 x hx n (by simp)
  have hchainA : List.Chain' (Rdep r) (n :: pre.reverse) := by
    rw [List.chain'_cons']
    constructor
    · intro y hy
      rw [List.head?_reverse] at hy
      exact hboundary y hy
    · rw [List.chain'_reverse]
      exact hsplit.1
  have hlastA : ∀ x ∈ (n :: pre.reverse).getLast?, Rdep r x n := by
    intro x hx
    cases hq : pre with
    | nil =>
      rw [hq] at hx
      simp at hx
      subst hx
      have hp1n : p₁ = n := by
        rw [hq] at hdec
        simpa using congrArg List.head? hdec
      exact hp1n ▸ hp₁
    | cons q pre' =>
      have hq1 : p₁ = q := by
        rw [hq] at hdec
        simpa using congrArg List.head? hdec
      rw [hq, List.reverse_cons,
        show n :: (pre'.reverse ++ [q]) = (n :: pre'.reverse) ++ [q] from rfl,
        List.getLast?_concat] at hx
      simp at hx
      subst hx
      rw [← hq1]
      exact hp₁
  constructor
  · refine ⟨?_, ?_, ?_⟩
    · rw [hcy]; simp
    · rw [hcy]
      rw [List.getLast?_concat]
      rfl
    · rw [hcy]
      rw [List.chain'_append]
      exact ⟨hchainA, List.chain'_singleton n, fun x hx y hy => by
        simp at hy
        subst hy
        exact hlastA x hx⟩
  · intro x hx
    rw [hcy] at hx
    rcases List.mem_append.mp hx with hx | hx
    · rcases List.mem_cons.mp hx with rfl | hx
      · exact hmem
      · rw [List.mem_reverse] at hx
        rw [hdec]
        exact List.mem_append.mpr (Or.inl hx)
    · simp at hx
      subst hx
      exact hmem

theorem visitL_cycle_payload (r : Registry) (T : String) : ∀ path acc l,
    ∀ c, path ≠ [] →
    List.Chain' (fun a b => Rdep r b a) path →
    (∀ p ∈ path, Reach r T p) →
    (∀ n ∈ l, Rdep r (path.headD "") n) →
    visitL r path acc l = .error (.cycleError c) →
    IsCyclePath r c ∧ ∀ x ∈ c, Reach r T x := by
  intro path acc l
  induction path, acc, l using visitL.induct r with
  | case1 path acc =>
    intro c _ _ _ _ h
    simp [visitL] at h
  | case2 path acc n ns hacc ih =>
    intro c hne hch hre hl h
    simp only [visitL, dif_pos hacc] at h
    exact ih c hne hch hre (fun m hm => hl m (List.mem_cons_of_mem _ hm)) h
  | case3 path acc n ns hacc hpath =>
    intro c hne hch hre hl h
    simp only [visitL, dif_neg hacc, dif_pos hpath] at h
    have hc : c = cycleOf n path := by simpa using h.symm
    subst hc
    obtain ⟨p₁, tl, rfl⟩ := List.exists_cons_of_ne_nil hne
    have hp₁ : Rdep r p₁ n := hl n (by simp)
    obtain ⟨hcyc, hsub⟩ := cycleOf_isCycle r n p₁ tl hch hpath hp₁
    exact ⟨hcyc, fun x hx => hre x (hsub x hx)⟩
  | case4 path acc n ns hacc hpath hq e he =>
    intro c hne hch hre hl h
    simp only [visitL, dif_neg hacc, dif_neg hpath, dif_pos hq, he] at h
    obtain ⟨f, rfl⟩ := extract_error_parse he
    simp at h
  | case5 path acc n ns hacc hpath hq deps he e hinner ih =>
    intro c hne hch hre hl h
    simp only [visitL, dif_neg hacc, dif_neg hpath, dif_pos hq, he,
      hinner] at h
    obtain ⟨p₁, tl, rfl⟩ := List.exists_cons_of_ne_nil hne
    have hpn : Rdep r p₁ n := hl n (by simp)
    have hTn : Reach r T n :=
      Relation.ReflTransGen.tail (hre p₁ (by simp)) hpn
    have he' : e = .cycleError c := by simpa using h
    rw [he'] at hinner
    apply ih c (by simp) (List.chain'_cons.mpr ⟨hpn, hch⟩)
    · intro m hm
      rcases List.mem_cons.mp hm with rfl | hm'
      · exact hTn
      · exact hre m hm'
    · intro m hm
      have : m ∈ depsOf r n := by rw [depsOf_isSome_eq hq he]; exact hm
      exact this
    · exact hinner
  | case6 path acc n ns hacc hpath hq deps he acc2 hinner ih1 ih2 =>
    intro c hne hch hre hl h
    simp only [visitL, dif_neg hacc, dif_neg hpath, dif_pos hq, he,
      hinner] at h
    exact ih2 c hne hch hre (fun m hm => hl m (List.mem_cons_of_mem _ hm)) h
  | case7 path acc n ns hacc hpath hq =>
    intro c hne hch hre hl h
    simp [visitL, hacc, hpath, hq] at h

/-- C3 (amended): whenever every name reachable from the target resolves to
a registered, cleanly-parsing template and the reachable dependency subgraph
contains a cycle, `compile` fails with `CycleError` carrying the ordered
list of names forming the detected cycle: the carried list runs from the
repeated node back to itself (it starts and ends at the same name, has at
least one edge, every consecutive pair is a dependency edge), and all of its
names are reachable from the target. -/
theorem compile_cycle_detected (r : Registry) (T : String)
    (lits : List (String × String))
    (hres : ∀ x, Reach r T x → Resolvable r x)
    (hcyc : CycleAt r T) :
    ∃ c, compile r T lits = .error (.cycleError c) ∧ IsCyclePath r c ∧
      ∀ x ∈ c, Reach r T x := by
  obtain ⟨body, ds, hb, he⟩ := hres T Relation.ReflTransGen.refl
  have hreg : (qlookup r T).isSome = true := by simp [hb]
  have he' : extract (bodyOf r T) = .ok ds := by
    rw [bodyOf, hb]
    simpa using he
  have hdeps : depsOf r T = ds := depsOf_isSome_eq hreg he'
  have hpreach : ∀ p ∈ [T], Reach r T p := by
    intro p hp
    rcases List.mem_singleton.mp hp with rfl
    exact Relation.ReflTransGen.refl
  have hldep : ∀ n ∈ ds, Rdep r (([T] : List String).headD "") n := by
    intro n hn
    have : n ∈ depsOf r T := by rw [hdeps]; exact hn
    exact this
  have hlreach : ∀ n ∈ ds, Reach r T n := by
    intro n hn
    exact Relation.ReflTransGen.single (hldep n hn)
  have hcb : ∀ x, Reach r T x → CleanBody r x := by
    intro x hx b'' hb''
    obtain ⟨b', ds', hb', he''⟩ := hres x hx
    rw [hb'] at hb''
    cases hb''
    exact ⟨ds', he''⟩
  cases hv : visitL r [T] [] ds with
  | ok D => exact absurd hcyc (visitL_ok_no_cycle r T hreg he' hv)
  | error e =>
    rcases visitL_error_kinds r T [T] [] ds e hpreach hlreach hcb hv with
      ⟨c, rfl⟩ | ⟨d, rfl, hnone, hreach⟩
    · obtain ⟨hpay, hrc⟩ := visitL_cycle_payload r T [T] [] ds c
        (by simp) (List.chain'_singleton T) hpreach hldep hv
      exact ⟨c, compile_eq_of_err lits hb he hv, hpay, hrc⟩
    · obtain ⟨b', ds', hb', _⟩ := hres d hreach
      rw [hb'] at hnone
      cases hnone

/-- C7 (amended), core statement: whenever the target is registered, every
reachable registered body parses cleanly, the reachable subgraph is acyclic,
and some reachable body references an unregistered name, `compile` fails
with `UnknownDependency`. -/
theorem compile_unknown_dep (r : Registry) (T : String)
    (lits : List (String × String))
    (hreg : (qlookup r T).isSome = true)
    (hclean : ∀ x, Reach r T x → CleanBody r x)
    (hacyc : ¬ CycleAt r T)
    (hmiss : ∃ x d, Reach r T x ∧ d ∈ depsOf r x ∧ qlookup r d = none) :
    ∃ d, compile r T lits = .error (.unknownDependency d) := by
  obtain ⟨body, hb⟩ := Option.isSome_iff_exists.mp hreg
  obtain ⟨ds, he⟩ := hclean T Relation.ReflTransGen.refl body hb
  have he' : extract (bodyOf r T) = .ok ds := by
    rw [bodyOf, hb]
    simpa using he
  have hdeps : depsOf r T = ds := depsOf_isSome_eq hreg he'
  have hpreach : ∀ p ∈ [T], Reach r T p := by
    intro p hp
    rcases List.mem_singleton.mp hp with rfl
    exact Relation.ReflTransGen.refl
  have hlreach : ∀ n ∈ ds, Reach r T n := by
    intro n hn
    have hrd : Rdep r T n := by
      have : n ∈ depsOf r T := by rw [hdeps]; exact hn
      exact this
    exact Relation.ReflTransGen.single hrd
  cases hv : visitL r [T] [] ds with
  | ok D =>
    exfalso
    obtain ⟨x, d, hx, hdx, hdnone⟩ := hmiss
    have hdreach : Reach r T d := Relation.ReflTransGen.tail hx hdx
    have hdS := visitL_ok_reach_mem r T hreg he' hv d hdreach
    obtain ⟨⟨t, htD, hz⟩, _, _, _⟩ := visitL_ok_spec r [T] [] ds D hv
    rw [List.nil_append] at htD
    subst htD
    rcases List.mem_cons.mp hdS with rfl | hdD
    · rw [hb] at hdnone; cases hdnone
    · have hsome := (hz d hdD).2.2
      rw [hdnone] at hsome
      cases hsome
  | error e =>
    rcases visitL_error_kinds r T [T] [] ds e hpreach hlreach hclean hv with
      ⟨c, rfl⟩ | ⟨d, rfl, _, _⟩
    · exfalso
      apply hacyc
      apply visitL_cycle_sound r T [T] [] ds c (by simp)
        (List.chain'_singleton T) hpreach ?_ hv
      intro n hn
      have : n ∈ depsOf r T := by rw [hdeps]; exact hn
      exact this
    · exact ⟨d, compile_eq_of_err lits hb he hv⟩


theorem bodyOf_congr {r1 r2 : Registry}
    (h : ∀ m, qlookup r1 m = qlookup r2 m) (n : String) :
    bodyOf r1 n = bodyOf r2 n := by
  simp [bodyOf, h n]

theorem visitL_congr (r1 r2 : Registry)
    (h : ∀ m, qlookup r1 m = qlookup r2 m) : ∀ path acc l,
    visitL r1 path acc l = visitL r2 path acc l := by
  intro path acc l
  induction path, acc, l using visitL.induct r1 with
  | case1 path acc => simp [visitL]
  | case2 path acc n ns hacc ih =>
    rw [visitL, visitL, dif_pos hacc, dif_pos hacc]
    exact ih
  | case3 path acc n ns hacc hpath =>
    rw [visitL, visitL, dif_neg hacc, dif_neg hacc, dif_pos hpath,
      dif_pos hpath]
  | case4 path acc n ns hacc hpath hq e he =>
    have hq2 : (qlookup r2 n).isSome = true := by rw [← h n]; exact hq
    rw [visitL, visitL, dif_neg hacc, dif_neg hacc, dif_neg hpath,
      dif_neg hpath, dif_pos hq, dif_pos hq2, ← bodyOf_congr h n, he]
  | case5 path acc n ns hacc hpath hq deps he e hinner ih =>
    have hq2 : (qlookup r2 n).isSome = true := by rw [← h n]; exact hq
    rw [visitL, visitL, dif_neg hacc, dif_neg hacc, dif_neg hpath,
      dif_neg hpath, dif_pos hq, dif_pos hq2, ← bodyOf_congr h n, he]
    rw [ih] at hinner
    simp only [ih, hinner]
  | case6 path acc n ns hacc hpath hq deps he acc2 hinner ih1 ih2 =>
    have hq2 : (qlookup r2 n).isSome = true := by rw [← h n]; exact hq
    rw [visitL, visitL, dif_neg hacc, dif_neg hacc, dif_neg hpath,
      dif_neg hpath, dif_pos hq, dif_pos hq2, ← bodyOf_congr h n, he]
    rw [ih1] at hinner
    simp only [ih1, hinner]
    exact ih2
  | case7 path acc n ns hacc hpath hq =>
    have hq2 : ¬ (qlookup r2 n).isSome = true := by rw [← h n]; exact hq
    rw [visitL, visitL, dif_neg hacc, dif_neg hacc, dif_neg hpath,
      dif_neg hpath, dif_neg hq, dif_neg hq2]

theorem applyLiterals_congr (r1 r2 : Registry)
    (h : ∀ m, qlookup r1 m = qlookup r2 m) : ∀ lits text,
    applyLiterals r1 lits text = applyLiterals r2 lits text := by
  intro lits
  induction lits with
  | nil => intro text; rfl
  | cons kv rest ih =>
    intro text
    obtain ⟨k, v⟩ := kv
    rw [applyLiterals, applyLiterals, h k]
    cases hk : (qlookup r2 k).isSome
    · simp only [Bool.false_eq_true, if_false]
      exact ih _
    · simp


/-- C1: for every registry and target whose transitive dependency set `D`
(as computed by the traversal) is non-empty, `compile` emits `WITH` followed
by one `name AS ( body )` auxiliary block per member of `D` in topological
order, blocks separated by commas, each block body and the trailing target
body having every internal reference rewritten to the bare name. -/
theorem compile_emits_with_blocks {r : Registry} {name body : String}
    {deps D : List String}
    (hb : qlookup r name = some body)
    (he : extract body = .ok deps)
    (hv : visitL r [name] [] deps = .ok D)
    (hne : D ≠ []) :
    compile r name [] = .ok ("WITH " ++ String.intercalate ", "
      (D.map (fun n => n ++ " AS ( " ++ substBare (bodyOf r n) ++ " )"))
      ++ " " ++ substBare body) := by
  have h := compile_eq_of_ok [] hb he hv
  rw [h, if_neg (by simpa using hne)]
  rfl

/-- C2: for every successfully compiled target, the emitted dependency list
`D` excludes the target itself, and every dependency edge `x → y` with `x`
in `D` points strictly backwards: `y` occurs in the part of `D` before `x`
(so `y`'s auxiliary block is emitted before `x`'s block, which is the only
place `y` is used as a bare identifier apart from the trailing target
body). -/
theorem compile_topological {r : Registry} {T body : String}
    {deps D : List String}
    (hb : qlookup r T = some body)
    (he : extract body = .ok deps)
    (hv : visitL r [T] [] deps = .ok D) :
    ¬ T ∈ D ∧
    ∀ l₁ x l₂, D = l₁ ++ x :: l₂ → ∀ y ∈ depsOf r x, y ∈ l₁ := by
  obtain ⟨⟨t, htD, hz⟩, hmem, hnd, hdc⟩ := visitL_ok_spec r [T] [] deps D hv
  rw [List.nil_append] at htD
  subst htD
  exact ⟨fun hT => (hz T hT).1 (by simp), hdc (depsClosed_nil r)⟩

/-- C4: each distinct transitive dependency appears exactly once in the
compiled dependency list, even under diamond-shaped reuse: the traversal
deduplicates, so the emitted block list is duplicate-free. -/
theorem compile_dedup_blocks {r : Registry} {T body : String}
    {deps D : List String} {d : String}
    (hb : qlookup r T = some body)
    (he : extract body = .ok deps)
    (hv : visitL r [T] [] deps = .ok D)
    (hd : d ∈ D) :
    D.count d = 1 := by
  obtain ⟨_, _, hnd, _⟩ := visitL_ok_spec r [T] [] deps D hv
  have hndD : D.Nodup := hnd List.nodup_nil
  exact List.count_eq_one_of_mem hndD hd

/-- C5: a registered template whose body contains no placeholder reference
compiles (with an empty literals mapping) to its body unchanged, with no
wrapping syntax. -/
theorem compile_dependency_free {r : Registry} {n body : String}
    (hb : qlookup r n = some body)
    (he : extract body = .ok []) :
    compile r n [] = .ok body := by
  have hv : visitL r [n] [] [] = .ok [] := by simp [visitL]
  have h := compile_eq_of_ok [] hb he hv
  rw [h, if_pos (by simp)]
  rfl

/-- C9: compile is a pure function of the registry snapshot, the target name
and the literals: two registries that agree as mappings (for every lookup)
yield identical compile output, so repeated calls with no intervening
mutation cannot differ — there is no hidden state. -/
theorem compile_referentially_transparent (r1 r2 : Registry)
    (name : String) (lits : List (String × String))
    (h : ∀ m, qlookup r1 m = qlookup r2 m) :
    compile r1 name lits = compile r2 name lits := by
  cases hq : qlookup r2 name with
  | none =>
    have hq1 : qlookup r1 name = none := by rw [h name]; exact hq
    simp only [compile, hq, hq1]
  | some body =>
    have hq1 : qlookup r1 name = some body := by rw [h name]; exact hq
    cases he : extract body with
    | error e => simp only [compile, hq, hq1, he]
    | ok deps =>
      cases hv : visitL r2 [name] [] deps with
      | error e =>
        have hv1 : visitL r1 [name] [] deps = .error e := by
          rw [visitL_congr r1 r2 h]; exact hv
        simp only [compile, hq, hq1, he, hv, hv1]
      | ok d =>
        have hv1 : visitL r1 [name] [] deps = .ok d := by
          rw [visitL_congr r1 r2 h]; exact hv
        simp only [compile, hq, hq1, he, hv, hv1]
        have hmap : d.map
            (fun n => n ++ " AS ( " ++ substBare (bodyOf r1 n) ++ " )") =
            d.map
            (fun n => n ++ " AS ( " ++ substBare (bodyOf r2 n) ++ " )") := by
          apply List.map_congr_left
          intro a _
          rw [bodyOf_congr h a]
        rw [hmap, applyLiterals_congr r1 r2 h]

theorem register_qlookup (r : Registry) (n b m : String) :
    qlookup (register r n b) m = if n = m then some b else qlookup r m := by
  induction r with
  | nil => by_cases hm : n = m <;> simp [register, qlookup, hm]
  | cons kv rest ih =>
    obtain ⟨k, v⟩ := kv
    by_cases hk : k = n
    · subst hk
      by_cases hm : k = m <;> simp [register, qlookup, hm]
    · by_cases hm : k = m
      · subst hm
        have hnm : ¬ n = k := fun hc => hk hc.symm
        simp [register, qlookup, hk, hnm]
      · simp [register, qlookup, hk, hm, ih]


theorem ql_rLC_loc : qlookup rLC "loc" = some locBody := rfl

theorem ql_rLC_cnt : qlookup rLC "cnt" = some cntBody := rfl

theorem ext_locBody : extract locBody = .ok [] := rfl

theorem ext_cntBody : extract cntBody = .ok ["loc"] := rfl

theorem bodyOf_rLC_loc : bodyOf rLC "loc" = locBody := rfl

theorem vis_rLC : visitL rLC ["cnt"] [] ["loc"] = .ok ["loc"] := by
  simp [visitL, ql_rLC_loc, ext_locBody, bodyOf_rLC_loc]

theorem ql_rLC2_loc : qlookup rLC2 "loc" = some locBody2 := rfl

theorem ql_rLC2_cnt : qlookup rLC2 "cnt" = some cntBody := rfl

theorem ext_locBody2 : extract locBody2 = .ok [] := rfl

theorem bodyOf_rLC2_loc : bodyOf rLC2 "loc" = locBody2 := rfl

theorem vis_rLC2 : visitL rLC2 ["cnt"] [] ["loc"] = .ok ["loc"] := by
  simp [visitL, ql_rLC2_loc, ext_locBody2, bodyOf_rLC2_loc]

theorem compile_rLC2_cnt : compile rLC2 "cnt" [] =
    .ok ("WITH loc AS ( SELECT state, city FROM location WHERE city IS NOT NULL ) SELECT state, COUNT(city) AS ct FROM loc GROUP BY state") := by
  rw [compile_eq_of_ok [] ql_rLC2_cnt ext_cntBody vis_rLC2]
  rfl

theorem ql_rDia_A : qlookup rDia "A" = some "SELECT 1" := rfl

theorem ql_rDia_B : qlookup rDia "B" =
    some "SELECT b FROM \x7b\x7bA\x7d\x7d" := rfl

theorem ql_rDia_C : qlookup rDia "C" =
    some "SELECT c FROM \x7b\x7bA\x7d\x7d" := rfl

theorem ql_rDia_D : qlookup rDia "D" =
    some "SELECT d FROM \x7b\x7bB\x7d\x7d JOIN \x7b\x7bC\x7d\x7d" := rfl

theorem ext_diaD : extract "SELECT d FROM \x7b\x7bB\x7d\x7d JOIN \x7b\x7bC\x7d\x7d" =
    .ok ["B", "C"] := rfl

theorem vis_rDia : visitL rDia ["D"] [] ["B", "C"] = .ok ["A", "B", "C"] := by
  have eB : extract (bodyOf rDia "B") = .ok ["A"] := rfl
  have eC : extract (bodyOf rDia "C") = .ok ["A"] := rfl
  have eA : extract (bodyOf rDia "A") = .ok [] := rfl
  have sA : (qlookup rDia "A").isSome = true := rfl
  have sB : (qlookup rDia "B").isSome = true := rfl
  have sC : (qlookup rDia "C").isSome = true := rfl
  simp [visitL, eA, eB, eC, sA, sB, sC]

/-- C1 witness at the registry holding `loc` and `cnt`. -/
theorem compile_emits_with_blocks_witness :
    extract cntBody = .ok ["loc"] ∧ (["loc"] : List String) ≠ [] ∧
    compile rLC "cnt" [] = .ok ("WITH " ++ String.intercalate ", "
      ((["loc"] : List String).map
        (fun n => n ++ " AS ( " ++ substBare (bodyOf rLC n) ++ " )"))
      ++ " " ++ substBare cntBody) :=
  ⟨rfl, by simp,
    compile_emits_with_blocks ql_rLC_cnt ext_cntBody vis_rLC (by simp)⟩

/-- C2 witness: the compiled dependency list of `cnt` is `[loc]` and
excludes the target. -/
theorem compile_topological_witness :
    visitL rLC ["cnt"] [] ["loc"] = .ok ["loc"] ∧
    ¬ "cnt" ∈ (["loc"] : List String) :=
  ⟨vis_rLC, (compile_topological ql_rLC_cnt ext_cntBody vis_rLC).1⟩

/-- C4 witness: in the diamond registry the dependency list of `D` holds
exactly one occurrence of `A`. -/
theorem compile_dedup_blocks_witness :
    visitL rDia ["D"] [] ["B", "C"] = .ok ["A", "B", "C"] ∧
    (["A", "B", "C"] : List String).count "A" = 1 :=
  ⟨vis_rDia,
    compile_dedup_blocks ql_rDia_D ext_diaD vis_rDia (by simp)⟩

/-- C5 witness: `loc` has no placeholders and compiles to its body
unchanged. -/
theorem compile_dependency_free_witness :
    qlookup rLC "loc" = some locBody ∧ extract locBody = .ok [] ∧
    compile rLC "loc" [] = .ok locBody :=
  ⟨ql_rLC_loc, ext_locBody, compile_dependency_free ql_rLC_loc ext_locBody⟩

/-- C9 witness: two registries with the same mapping but different
insertion order compile identically. -/
theorem compile_referentially_transparent_witness :
    compile rW1 "a" [] = compile rW2 "a" [] := by
  apply compile_referentially_transparent rW1 rW2 "a" []
  intro m
  by_cases h1 : "a" = m
  · subst h1
    simp [qlookup, rW1, rW2]
  · by_cases h2 : "b" = m
    · subst h2
      simp [qlookup, rW1, rW2]
    · simp [qlookup, rW1, rW2, h1, h2]


/-- C6: `register` on an existing name fully replaces its template and
touches nothing else (lookup of the new registry is the old mapping with
exactly that one point overwritten); since edges and bodies are re-derived
from the current mapping on every compile, a subsequent compile of the
dependent `cnt` reflects the replacement body `locBody2` with no other
registry change and no invalidation step. -/
theorem register_overwrite_update :
    (∀ (r : Registry) (n b m : String),
      qlookup (register r n b) m = if n = m then some b else qlookup r m) ∧
    compile rLC2 "cnt" [] =
      .ok ("WITH loc AS ( SELECT state, city FROM location WHERE city IS NOT NULL ) SELECT state, COUNT(city) AS ct FROM loc GROUP BY state") :=
  ⟨register_qlookup, compile_rLC2_cnt⟩

theorem ql_rAB_A : qlookup rAB "A" =
    some "SELECT a FROM \x7b\x7bB\x7d\x7d" := rfl

theorem ql_rAB_B : qlookup rAB "B" =
    some "SELECT b FROM \x7b\x7bA\x7d\x7d" := rfl

theorem rAB_closed : ∀ z ∈ (["A", "B"] : List String),
    ∀ y ∈ depsOf rAB z, y ∈ (["A", "B"] : List String) := by decide

theorem rAB_resolvable : ∀ x ∈ (["A", "B"] : List String),
    Resolvable rAB x := by
  intro x hx
  rcases List.mem_cons.mp hx with rfl | hx
  · exact ⟨_, ["B"], ql_rAB_A, rfl⟩
  · rcases List.mem_singleton.mp hx with rfl
    exact ⟨_, ["A"], ql_rAB_B, rfl⟩

theorem rAB_cycle_A : CycleAt rAB "A" := by
  refine ⟨"A", "B", Relation.ReflTransGen.refl, ?_, ?_⟩
  · show "B" ∈ depsOf rAB "A"
    decide
  · refine Relation.ReflTransGen.single ?_
    show "A" ∈ depsOf rAB "B"
    decide

theorem rAB_cycle_B : CycleAt rAB "B" := by
  refine ⟨"B", "A", Relation.ReflTransGen.refl, ?_, ?_⟩
  · show "A" ∈ depsOf rAB "B"
    decide
  · refine Relation.ReflTransGen.single ?_
    show "B" ∈ depsOf rAB "A"
    decide

theorem compile_rAB_A : compile rAB "A" [] =
    .error (.cycleError ["A", "B", "A"]) := by
  have hb : qlookup rAB "A" = some "SELECT a FROM \x7b\x7bB\x7d\x7d" := rfl
  have he : extract "SELECT a FROM \x7b\x7bB\x7d\x7d" = .ok ["B"] := rfl
  have hsB : (qlookup rAB "B").isSome = true := rfl
  have heB : extract (bodyOf rAB "B") = .ok ["A"] := rfl
  have hv : visitL rAB ["A"] [] ["B"] =
      .error (.cycleError ["A", "B", "A"]) := by
    simp [visitL, hsB, heB, cycleOf]
  exact compile_eq_of_err [] hb he hv

/-- C3 witness: in the two-template cycle `A ↔ B`, both compiles fail with a
`CycleError` whose payload is an ordered cycle; for `A` the payload is
concretely the list `[A, B, A]`. -/
theorem compile_cycle_detected_witness :
    (∃ c, compile rAB "A" [] = .error (.cycleError c) ∧ IsCyclePath rAB c) ∧
    (∃ c, compile rAB "B" [] = .error (.cycleError c) ∧ IsCyclePath rAB c) ∧
    compile rAB "A" [] = .error (.cycleError ["A", "B", "A"]) := by
  refine ⟨?_, ?_, compile_rAB_A⟩
  · obtain ⟨c, h1, h2, _⟩ := compile_cycle_detected rAB "A" []
      (fun x hx => rAB_resolvable x
        (reach_subset rAB ["A", "B"] rAB_closed (by simp) x hx))
      rAB_cycle_A
    exact ⟨c, h1, h2⟩
  · obtain ⟨c, h1, h2, _⟩ := compile_cycle_detected rAB "B" []
      (fun x hx => rAB_resolvable x
        (reach_subset rAB ["A", "B"] rAB_closed (by simp) x hx))
      rAB_cycle_B
    exact ⟨c, h1, h2⟩

theorem ql_rCX_missing : qlookup rCX "missing" = none := rfl

theorem compile_rCX_A : compile rCX "A" [] =
    .error (.unknownDependency "missing") := by
  have hb : qlookup rCX "A" =
      some "\x7b\x7bmissing\x7d\x7d \x7b\x7bB\x7d\x7d" := rfl
  have he : extract "\x7b\x7bmissing\x7d\x7d \x7b\x7bB\x7d\x7d" =
      .ok ["missing", "B"] := rfl
  have hv : visitL rCX ["A"] [] ["missing", "B"] =
      .error (.unknownDependency "missing") := by
    simp [visitL, ql_rCX_missing]
  exact compile_eq_of_err [] hb he hv

/-- C3 counterexample: `rCX` has a cycle reachable from `A` (through `B`),
yet `compile rCX "A"` fails with `UnknownDependency`, not `CycleError`,
because the traversal meets the unregistered reference first. -/
theorem compile_cycle_claim_counterexample :
    compile rCX "A" [] = .error (.unknownDependency "missing") ∧
    isCycleErr (compile rCX "A" []) = false ∧
    CycleAt rCX "A" := by
  refine ⟨compile_rCX_A, by rw [compile_rCX_A]; rfl, ?_⟩
  refine ⟨"A", "B", Relation.ReflTransGen.refl, ?_, ?_⟩
  · show "B" ∈ depsOf rCX "A"
    decide
  · refine Relation.ReflTransGen.single ?_
    show "A" ∈ depsOf rCX "B"
    decide

theorem compile_rC7X_A : compile rC7X "A" [] =
    .error (.cycleError ["A", "B", "A"]) := by
  have hb : qlookup rC7X "A" =
      some "\x7b\x7bB\x7d\x7d \x7b\x7bmissing\x7d\x7d" := rfl
  have he : extract "\x7b\x7bB\x7d\x7d \x7b\x7bmissing\x7d\x7d" =
      .ok ["B", "missing"] := rfl
  have hsB : (qlookup rC7X "B").isSome = true := rfl
  have heB : extract (bodyOf rC7X "B") = .ok ["A"] := rfl
  have hv : visitL rC7X ["A"] [] ["B", "missing"] =
      .error (.cycleError ["A", "B", "A"]) := by
    simp [visitL, hsB, heB, cycleOf]
  exact compile_eq_of_err [] hb he hv

/-- C7 counterexample: in `rC7X` the target `A` is registered and a
reachable body references the unregistered `missing`, yet `compile` fails
with `CycleError`, not `UnknownDependency`, because the traversal meets the
cycle through `B` first. -/
theorem compile_unknown_claim_counterexample :
    compile rC7X "A" [] = .error (.cycleError ["A", "B", "A"]) ∧
    isUnknownDep (compile rC7X "A" []) = false ∧
    "missing" ∈ depsOf rC7X "A" ∧
    qlookup rC7X "missing" = none := by
  refine ⟨compile_rC7X_A, by rw [compile_rC7X_A]; rfl, by decide, rfl⟩

theorem rMiss_closed : ∀ z ∈ (["X", "missing"] : List String),
    ∀ y ∈ depsOf rMiss z, y ∈ (["X", "missing"] : List String) := by decide

theorem rMiss_missing_closed : ∀ z ∈ (["missing"] : List String),
    ∀ y ∈ depsOf rMiss z, y ∈ (["missing"] : List String) := by decide

/-- C7 witness: a registry whose only template references an unregistered
name; compile fails with `UnknownDependency`. -/
theorem compile_unknown_dep_witness :
    (qlookup rMiss "X").isSome = true ∧
    ∃ d, compile rMiss "X" [] = .error (.unknownDependency d) := by
  refine ⟨rfl, ?_⟩
  apply compile_unknown_dep rMiss "X" [] rfl
  · intro x hx b hb
    have hx2 := reach_subset rMiss ["X", "missing"] rMiss_closed
      (by simp) x hx
    simp at hx2
    rcases hx2 with rfl | rfl
    · rw [show qlookup rMiss "X" =
        some "SELECT x FROM \x7b\x7bmissing\x7d\x7d" from rfl] at hb
      cases hb
      exact ⟨["missing"], rfl⟩
    · rw [show qlookup rMiss "missing" = none from rfl] at hb
      cases hb
  · rintro ⟨x, y, hx, hxy, hyx⟩
    have hx2 := reach_subset rMiss ["X", "missing"] rMiss_closed
      (by simp) x hx
    simp at hx2
    rcases hx2 with rfl | rfl
    · have hy : y ∈ depsOf rMiss "X" := hxy
      rw [show depsOf rMiss "X" = ["missing"] from rfl] at hy
      rcases List.mem_singleton.mp hy with rfl
      have := reach_subset rMiss ["missing"] rMiss_missing_closed
        (by simp) "X" hyx
      simp at this
    · have hy : y ∈ depsOf rMiss "missing" := hxy
      rw [show depsOf rMiss "missing" = [] from rfl] at hy
      cases hy
  · exact ⟨"X", "missing", Relation.ReflTransGen.refl, by decide, rfl⟩

/-- C8: the reachability query fails with `NotFound` exactly on an
unregistered root (and never errors on a registered root, returning a plain
boolean even for unreachable or unregistered targets); on the `loc`/`cnt`
registry it answers `true` from `cnt` to `loc` and `false` from `loc` to
`cnt`. -/
theorem reaches_notfound_spec :
    (∀ (r : Registry) (root target : String),
      (qlookup r root = none →
        find_in_dependencies r root target = .error (.notFound root)) ∧
      (∀ b, qlookup r root = some b →
        ∃ bb, find_in_dependencies r root target = .ok bb)) ∧
    find_in_dependencies rLC "cnt" "loc" = .ok true ∧
    find_in_dependencies rLC "loc" "cnt" = .ok false := by
  refine ⟨?_, ?_, ?_⟩
  · intro r root target
    constructor
    · intro h
      simp [find_in_dependencies, h]
    · intro b h
      refine ⟨decide (target ∈ traverse r (fuelFor r) [root] []), ?_⟩
      simp [find_in_dependencies, h]
  · rfl
  · rfl

/-- C8 witness: the `NotFound` branch applied to the empty registry. -/
theorem reaches_notfound_spec_witness :
    find_in_dependencies [] "a" "b" = .error (.notFound "a") :=
  (reaches_notfound_spec.1 [] "a" "b").1 rfl


theorem noAdjPair_tail {c : Char} {a : Char} {l : List Char}
    (h : noAdjPair c (a :: l) = true) : noAdjPair c l = true := by
  cases l with
  | nil => rfl
  | cons b rest =>
    simp only [noAdjPair, Bool.and_eq_true] at h
    exact h.2

theorem noAdjPair_head {c : Char} {a b : Char} {l : List Char}
    (h : noAdjPair c (a :: b :: l) = true) (ha : a = c) : ¬ b = c := by
  intro hb
  subst ha
  subst hb
  simp [noAdjPair] at h

theorem scanS_inP_close : ∀ (N : Nat) (content : List Char),
    content.length ≤ N →
    noAdjPair cbr content = true → content.getLast? ≠ some cbr →
    ∀ (acc post : List Char), isIdentL (acc.reverse ++ content) = false →
    scanS (.inP acc) (content ++ cbr :: cbr :: post) =
      .error (.parseError (String.mk (acc.reverse ++ content))) := by
  intro N
  induction N with
  | zero =>
    intro content hlen _ _ acc post hid
    have : content = [] := List.eq_nil_of_length_eq_zero (by omega)
    subst this
    rw [List.append_nil] at hid
    simp [scanS, hid]
  | succ N ih =>
    intro content hlen hadj hlast acc post hid
    match content with
    | [] =>
      rw [List.append_nil] at hid
      simp [scanS, hid]
    | c :: content' =>
      by_cases hc : c = cbr
      · subst hc
        match content' with
        | [] =>
          exact absurd (by simp : ([cbr] : List Char).getLast? = some cbr) hlast
        | d :: content'' =>
          have hd : ¬ d = cbr := noAdjPair_head hadj rfl
          have step : scanS (.inP acc)
              ((cbr :: d :: content'') ++ cbr :: cbr :: post) =
              scanS (.inP (d :: cbr :: acc)) (content'' ++ cbr :: cbr :: post) := by
            simp [scanS, hd]
          rw [step]
          have hfull : (d :: cbr :: acc).reverse ++ content'' =
              acc.reverse ++ cbr :: d :: content'' := by simp
          have hres := ih content''
            (by simp only [List.length_cons] at hlen ⊢; omega)
            (noAdjPair_tail (noAdjPair_tail hadj))
            (by
              cases content'' with
              | nil => simp
              | cons e rest =>
                rw [List.getLast?_cons_cons, List.getLast?_cons_cons] at hlast
                exact hlast)
            (d :: cbr :: acc) post (by rw [hfull]; exact hid)
          rw [hres, hfull]
      · have step : scanS (.inP acc) ((c :: content') ++ cbr :: cbr :: post) =
            scanS (.inP (c :: acc)) (content' ++ cbr :: cbr :: post) := by
          simp [scanS, hc]
        rw [step]
        have hfull : (c :: acc).reverse ++ content' =
            acc.reverse ++ c :: content' := by simp
        have hres := ih content'
          (by simp only [List.length_cons] at hlen; omega)
          (noAdjPair_tail hadj)
          (by
            cases content' with
            | nil => simp
            | cons e rest =>
              rw [List.getLast?_cons_cons] at hlast
              exact hlast)
          (c :: acc) post (by rw [hfull]; exact hid)
        rw [hres, hfull]

theorem scanS_append_error : ∀ (pre : List Char) (st : ScanSt)
    (s : List Char) (e : QSError),
    scanClean st pre = true →
    scanS .out s = .error e →
    scanS st (pre ++ s) = .error e := by
  intro pre
  induction pre with
  | nil =>
    intro st s e hcl hs
    cases st with
    | out => simpa using hs
    | ob1 => simp [scanClean] at hcl
    | inP acc => simp [scanClean] at hcl
    | inPcb acc => simp [scanClean] at hcl
  | cons c rest ih =>
    intro st s e hcl hs
    cases st with
    | out =>
      by_cases hc : c = obr
      · rw [scanClean, if_pos hc] at hcl
        rw [List.cons_append, scanS, if_pos hc]
        exact ih .ob1 s e hcl hs
      · rw [scanClean, if_neg hc] at hcl
        rw [List.cons_append, scanS, if_neg hc]
        exact ih .out s e hcl hs
    | ob1 =>
      by_cases hc : c = obr
      · rw [scanClean, if_pos hc] at hcl
        rw [List.cons_append, scanS, if_pos hc]
        exact ih (.inP []) s e hcl hs
      · rw [scanClean, if_neg hc] at hcl
        rw [List.cons_append, scanS, if_neg hc]
        exact ih .out s e hcl hs
    | inP acc =>
      by_cases hc : c = cbr
      · rw [scanClean, if_pos hc] at hcl
        rw [List.cons_append, scanS, if_pos hc]
        exact ih (.inPcb acc) s e hcl hs
      · rw [scanClean, if_neg hc] at hcl
        rw [List.cons_append, scanS, if_neg hc]
        exact ih (.inP (c :: acc)) s e hcl hs
    | inPcb acc =>
      by_cases hc : c = cbr
      · rw [scanClean, if_pos hc] at hcl
        rw [Bool.and_eq_true] at hcl
        have hrec := ih .out s e hcl.2 hs
        rw [List.cons_append, scanS, if_pos hc, if_pos hcl.1, hrec]
      · rw [scanClean, if_neg hc] at hcl
        rw [List.cons_append, scanS, if_neg hc]
        exact ih (.inP (c :: cbr :: acc)) s e hcl hs

/-- C10: any template body of the shape
`pre ⬝ \x7b\x7b ⬝ content ⬝ \x7d\x7d ⬝ post` — where `pre` scans cleanly
(its placeholders, if any, are complete and well-formed, ending outside any
placeholder), `content` contains no closing pair of its own, and `content`
does not match the identifier grammar — makes reference extraction fail with
`ParseError` naming exactly the offending fragment; and every compile that
consults that body fails the same way: a compile of a target registered with
the body, the traversal the moment it reaches any name holding the body, and
in particular a compile of a target whose first reference is a name holding
the body. -/
theorem extract_malformed_parse_error
    (pre content post : List Char)
    (hpre : scanClean .out pre = true)
    (hc1 : noAdjPair cbr content = true)
    (hc2 : content.getLast? ≠ some cbr)
    (hbad : isIdentL content = false) :
    extract (String.mk (pre ++ obr :: obr :: (content ++ cbr :: cbr :: post)))
      = .error (.parseError (String.mk content)) ∧
    (∀ (r : Registry) (n : String) (lits : List (String × String)),
      qlookup r n = some (String.mk
        (pre ++ obr :: obr :: (content ++ cbr :: cbr :: post))) →
      compile r n lits = .error (.parseError (String.mk content))) ∧
    (∀ (r : Registry) (m : String) (path acc ns : List String),
      qlookup r m = some (String.mk
        (pre ++ obr :: obr :: (content ++ cbr :: cbr :: post))) →
      ¬ m ∈ acc → ¬ m ∈ path →
      visitL r path acc (m :: ns) =
        .error (.parseError (String.mk content))) ∧
    (∀ (r : Registry) (n m nbody : String) (rest : List String)
      (lits : List (String × String)),
      qlookup r n = some nbody → extract nbody = .ok (m :: rest) →
      qlookup r m = some (String.mk
        (pre ++ obr :: obr :: (content ++ cbr :: cbr :: post))) →
      m ≠ n →
      compile r n lits = .error (.parseError (String.mk content))) := by
  have htl : (String.mk
      (pre ++ obr :: obr :: (content ++ cbr :: cbr :: post))).toList =
      pre ++ obr :: obr :: (content ++ cbr :: cbr :: post) := rfl
  have hinner : scanS .out (obr :: obr :: (content ++ cbr :: cbr :: post)) =
      .error (.parseError (String.mk content)) := by
    have h1 : scanS .out (obr :: obr :: (content ++ cbr :: cbr :: post)) =
        scanS (.inP []) (content ++ cbr :: cbr :: post) := by
      simp [scanS]
    rw [h1, scanS_inP_close content.length content le_rfl hc1 hc2 [] post
      (by simpa using hbad)]
    simp
  have hmain : extract (String.mk
      (pre ++ obr :: obr :: (content ++ cbr :: cbr :: post))) =
      .error (.parseError (String.mk content)) := by
    rw [extract, htl]
    exact scanS_append_error pre .out _ _ hpre hinner
  have hvisit : ∀ (r : Registry) (m : String) (path acc ns : List String),
      qlookup r m = some (String.mk
        (pre ++ obr :: obr :: (content ++ cbr :: cbr :: post))) →
      ¬ m ∈ acc → ¬ m ∈ path →
      visitL r path acc (m :: ns) =
        .error (.parseError (String.mk content)) := by
    intro r m path acc ns hm hacc hpath
    have hsome : (qlookup r m).isSome = true := by simp [hm]
    have hbody : bodyOf r m = String.mk
        (pre ++ obr :: obr :: (content ++ cbr :: cbr :: post)) := by
      simp [bodyOf, hm]
    rw [visitL, dif_neg hacc, dif_neg hpath, dif_pos hsome, hbody, hmain]
  refine ⟨hmain, ?_, hvisit, ?_⟩
  · intro r n lits hq
    simp only [compile, hq, hmain]
  · intro r n m nbody rest lits hqn hext hqm hmn
    have hv := hvisit r m [n] [] rest hqm (by simp)
      (by simpa using fun hc => hmn hc)
    exact compile_eq_of_err lits hqn hext hv

/-- C10 witness: the body `\x7b\x7bgood\x7d\x7d \x7b\x7bb@d\x7d\x7d` — a
well-formed placeholder before the malformed one — fails extraction with a
`ParseError` naming `b@d`, and a compile of a target that merely references
the name holding that body fails the same way. -/
theorem extract_malformed_parse_error_witness :
    scanClean .out ("\x7b\x7bgood\x7d\x7d ".toList) = true ∧
    isIdentL ['b', '@', 'd'] = false ∧
    extract (String.mk ("\x7b\x7bgood\x7d\x7d ".toList ++ obr :: obr ::
      (['b', '@', 'd'] ++ cbr :: cbr :: []))) =
      .error (.parseError (String.mk ['b', '@', 'd'])) ∧
    compile rBadDep "T" [] =
      .error (.parseError (String.mk ['b', '@', 'd'])) := by
  have h := extract_malformed_parse_error ("\x7b\x7bgood\x7d\x7d ".toList)
    ['b', '@', 'd'] [] (by decide) (by decide) (by decide) (by decide)
  refine ⟨by decide, by decide, h.1, ?_⟩
  exact h.2.2.2 rBadDep "T" "M" "\x7b\x7bM\x7d\x7d" [] [] rfl rfl rfl
    (by decide)

end Tablecloth
